import Mathlib

/-!
Verification of the merkle_tree library: a shallow embedding of
`src/merkle_tree.rs`, `src/merkle_proof.rs`, `src/hash/to_hash.rs` and
`src/error/tree_error.rs`.

The digest type is kept abstract: the tree and proof operations are
parametrised by a type `H` with decidable equality and a binary `combine`
function, exactly the interface the Rust code consumes through the
`ToHash` trait.  The byte-level default implementation of
`ToHash::combine` is embedded separately (`ToHash.combine`) over a
linearly ordered digest type with a byte conversion and a hash function.

Stateful Rust methods taking `&mut self` are embedded as functions
`MerkleTree H → … → MerkleTree H × Except TreeError α` returning the
updated state alongside the result, so that partial mutations surviving
an early `?` return are modelled faithfully.
-/

/-- Embeds `TreeErrorKind` from `src/error/tree_error.rs`. -/
inductive TreeErrorKind where
  | TreeEmpty
  | LeafEmpty
  | PathLeafEmpty
  | ProofEmpty
deriving DecidableEq

/-- Embeds `TreeError` from `src/error/tree_error.rs`. -/
structure TreeError where
  kind : TreeErrorKind
  message : String
deriving DecidableEq

def TreeError.tree_empty : TreeError :=
  ⟨TreeErrorKind.TreeEmpty, "Tree must contain at least a single leaf"⟩

def TreeError.leaf_empty : TreeError :=
  ⟨TreeErrorKind.LeafEmpty, "Leaves of the tree cannot be empty"⟩

def TreeError.path_leaf_not_set : TreeError :=
  ⟨TreeErrorKind.PathLeafEmpty, "Current path leaf must be set to analyse path"⟩

def TreeError.proof_empty : TreeError :=
  ⟨TreeErrorKind.ProofEmpty, "proof is empty"⟩

/-- Embeds the fields of `MerkleTree<T>` from `src/merkle_tree.rs`:
`leaves`, `path` and `current_path_leaf`. -/
structure MerkleTree (H : Type) where
  leaves : List H
  path : List H
  current_path_leaf : Option H
deriving DecidableEq

namespace MerkleTree

variable {H : Type}

/-- Embeds `MerkleTree::new`. -/
def new : MerkleTree H := ⟨[], [], none⟩

/-- Embeds `MerkleTree::from_leaves`. -/
def from_leaves (leaves : List H) : MerkleTree H := ⟨leaves, [], none⟩

/-- Embeds `MerkleTree::append`. -/
def append (t : MerkleTree H) (leaf : H) : MerkleTree H :=
  { t with leaves := t.leaves ++ [leaf] }

/-- Embeds `MerkleTree::clear_path`. -/
def clear_path (t : MerkleTree H) : MerkleTree H :=
  { t with path := [], current_path_leaf := none }

/-- Embeds `MerkleTree::add_to_path`.  If neither pair element equals the
current path leaf the state is untouched; otherwise the sibling(s) of the
matching element are pushed onto `path` (both `if`s can fire in the Rust
code when both elements match) and the current path leaf is rebound to
the combined digest.  With no current path leaf set it fails with
`PathLeafEmpty`. -/
def add_to_path [DecidableEq H] (t : MerkleTree H)
    (leaf_left leaf_right combined_leaf : H) :
    MerkleTree H × Except TreeError Unit :=
  match t.current_path_leaf with
  | none => (t, Except.error TreeError.path_leaf_not_set)
  | some cpl =>
    if leaf_left ≠ cpl ∧ leaf_right ≠ cpl then (t, Except.ok ())
    else
      let t1 := if leaf_left = cpl then { t with path := t.path ++ [leaf_right] } else t
      let t2 := if leaf_right = cpl then { t1 with path := t1.path ++ [leaf_left] } else t1
      ({ t2 with current_path_leaf := some combined_leaf }, Except.ok ())

/-- Embeds `MerkleTree::process_leaves_in_pairs`: consecutive pairs are
replaced by their combined digest (calling `add_to_path` for each pair
when a path is generated), and an odd trailing element is carried forward
unchanged.  The Rust `leaves.last().ok_or_else(leaf_empty)` only runs
when the length is odd, hence nonzero, so `last()` is always `Some` and
the `LeafEmpty` error is unreachable; the `[x]` case below is the carried
element. -/
def process_leaves_in_pairs [DecidableEq H] (combine : H → H → H) (t : MerkleTree H)
    (leaves : List H) (generate_path : Bool) :
    MerkleTree H × Except TreeError (List H) :=
  match leaves with
  | [] => (t, Except.ok [])
  | [x] => (t, Except.ok [x])
  | x :: y :: rest =>
    let combined := combine x y
    match (if generate_path then add_to_path t x y combined else (t, Except.ok ())) with
    | (t1, Except.error e) => (t1, Except.error e)
    | (t1, Except.ok _) =>
      match process_leaves_in_pairs combine t1 rest generate_path with
      | (t2, Except.error e) => (t2, Except.error e)
      | (t2, Except.ok processed) => (t2, Except.ok (combined :: processed))

/-- Recursion principle matching the two-at-a-time structure of the
pairwise reduction. -/
def pairRec {motive : List H → Sort _} (nil : motive [])
    (single : ∀ x, motive [x])
    (cons : ∀ x y rest, motive rest → motive (x :: y :: rest)) :
    ∀ l, motive l
  | [] => nil
  | [x] => single x
  | x :: y :: rest => cons x y rest (pairRec nil single cons rest)

/-- Pure mirror of one reduction level: the list produced by
`process_leaves_in_pairs` irrespective of path state. -/
def pairUp (combine : H → H → H) : List H → List H
  | [] => []
  | [x] => [x]
  | x :: y :: rest => combine x y :: pairUp combine rest

theorem pairUp_length (combine : H → H → H) (l : List H) :
    (pairUp combine l).length = (l.length + 1) / 2 := by
  induction l using pairRec with
  | nil => simp [pairUp]
  | single x => simp [pairUp]
  | cons x y rest ih => simp [pairUp, ih]; omega

theorem process_length [DecidableEq H] (combine : H → H → H) {t : MerkleTree H}
    {l : List H} {g : Bool} {t' : MerkleTree H} {p : List H}
    (h : process_leaves_in_pairs combine t l g = (t', Except.ok p)) :
    p.length = (l.length + 1) / 2 := by
  induction l using pairRec generalizing t t' p with
  | nil =>
    simp [process_leaves_in_pairs] at h
    obtain ⟨-, rfl⟩ := h
    simp
  | single x =>
    simp [process_leaves_in_pairs] at h
    obtain ⟨-, rfl⟩ := h
    simp
  | cons x y rest ih =>
    rw [process_leaves_in_pairs] at h
    rcases h1 : (if g then add_to_path t x y (combine x y) else (t, Except.ok ())) with ⟨t1, r1⟩
    rw [h1] at h
    cases r1 with
    | error e => simp at h
    | ok u =>
      dsimp only at h
      rcases h2 : process_leaves_in_pairs combine t1 rest g with ⟨t2, r2⟩
      rw [h2] at h
      cases r2 with
      | error e => simp at h
      | ok p2 =>
        simp at h
        have hlen := ih h2
        obtain ⟨-, rfl⟩ := h
        simp [hlen]
        omega

/-- Embeds `MerkleTree::reduce_tree`: one pairwise pass, repeated while
more than one digest remains. -/
def reduce_tree [DecidableEq H] (combine : H → H → H) (t : MerkleTree H) (leaves : List H)
    (generate_path : Bool) : MerkleTree H × Except TreeError (List H) :=
  match hl : process_leaves_in_pairs combine t leaves generate_path with
  | (t1, Except.error e) => (t1, Except.error e)
  | (t1, Except.ok processed) =>
    if h : processed.length > 1 then reduce_tree combine t1 processed generate_path
    else (t1, Except.ok processed)
termination_by leaves.length
decreasing_by
  have := process_length combine hl
  omega

/-- Pure mirror of the full reduction (levels until at most one digest
remains). -/
def reduceList (combine : H → H → H) (l : List H) : List H :=
  if h : (pairUp combine l).length > 1 then reduceList combine (pairUp combine l)
  else pairUp combine l
termination_by l.length
decreasing_by
  have := pairUp_length combine l
  omega

/-- Level `k` of the reduction of leaf list `L`. -/
def levels (combine : H → H → H) (L : List H) : Nat → List H
  | 0 => L
  | k + 1 => pairUp combine (levels combine L k)

/-- Embeds `MerkleTree::root_hash`: `TreeEmpty` on an empty leaf list,
otherwise the first element of the fully reduced clone of the leaves.
The Rust code indexes the reduced vector with `[0]`, which would panic on
an empty vector; the reduction of a nonempty list is always a singleton
(`reduceList_length_one` below), so the `none` branch is unreachable and
is mapped to an error only to keep the function total. -/
def root_hash [DecidableEq H] (combine : H → H → H) (t : MerkleTree H) :
    MerkleTree H × Except TreeError H :=
  if t.leaves.isEmpty then (t, Except.error TreeError.tree_empty)
  else
    match reduce_tree combine t t.leaves false with
    | (t1, Except.error e) => (t1, Except.error e)
    | (t1, Except.ok processed) =>
      match processed.head? with
      | some r => (t1, Except.ok r)
      | none => (t1, Except.error TreeError.leaf_empty)

/-- Embeds `MerkleTree::get_proof`: set the current path leaf, reduce a
clone of the leaves with path generation, return the accumulated path and
clear the transient state.  On an error the `?` propagates before
`clear_path` runs, so the transient state survives. -/
def get_proof [DecidableEq H] (combine : H → H → H) (t : MerkleTree H) (leaf : H) :
    MerkleTree H × Except TreeError (List H) :=
  let t0 := { t with current_path_leaf := some leaf }
  match reduce_tree combine t0 t0.leaves true with
  | (t1, Except.error e) => (t1, Except.error e)
  | (t1, Except.ok _) => (clear_path t1, Except.ok t1.path)

end MerkleTree

/-- Embeds `MerkleProof<T>` from `src/merkle_proof.rs`. -/
structure MerkleProof (H : Type) where
  proof : List H

namespace MerkleProof

variable {H : Type}

/-- Rust's `Iterator::reduce`: `none` on an empty sequence, otherwise the
left fold of the tail with the head as the initial accumulator. -/
def listReduce (combine : H → H → H) : List H → Option H
  | [] => none
  | x :: xs => some (xs.foldl combine x)

/-- Embeds `MerkleProof::reduce_proof`: the leaf is prepended to the
stored proof and the result reduced through `combine`; an empty sequence
(impossible after the prepend) gives `ProofEmpty`. -/
def reduce_proof (combine : H → H → H) (p : MerkleProof H) (leaf : H) :
    Except TreeError H :=
  match listReduce combine (leaf :: p.proof) with
  | some h => Except.ok h
  | none => Except.error TreeError.proof_empty

/-- Embeds `MerkleProof::validate`: any error from `reduce_proof` is
mapped to `false`, otherwise the recomputed root is compared with the
expected one. -/
def validate [DecidableEq H] (combine : H → H → H) (p : MerkleProof H)
    (root_hash leaf : H) : Bool :=
  match reduce_proof combine p leaf with
  | Except.error _ => false
  | Except.ok h => root_hash == h

end MerkleProof

section ToHashCombine

variable {H : Type} [LinearOrder H]

/-- Embeds the default method `ToHash::combine` from
`src/hash/to_hash.rs`: if `left <= right` hash the bytes of `right`
followed by the bytes of `left`, otherwise the bytes of `left` followed
by the bytes of `right`.  `hash` and `into` stand for the trait's
`hash` function and the `Into<Vec<u8>>` conversion of a digest. -/
def ToHash.combine (hash : List Nat → H) (into : H → List Nat)
    (left right : H) : H :=
  if left ≤ right then hash (into right ++ into left)
  else hash (into left ++ into right)

end ToHashCombine

namespace MerkleTree

variable {H : Type} [DecidableEq H]

theorem reduce_tree_eq (combine : H → H → H) (t : MerkleTree H) (l : List H) (g : Bool) :
    reduce_tree combine t l g =
      match process_leaves_in_pairs combine t l g with
      | (t1, Except.error e) => (t1, Except.error e)
      | (t1, Except.ok processed) =>
        if processed.length > 1 then reduce_tree combine t1 processed g
        else (t1, Except.ok processed) := by
  rw [reduce_tree]
  rcases hp : process_leaves_in_pairs combine t l g with ⟨t1, r⟩
  cases r <;> simp

/-- With `generate_path = false` one pass leaves the state untouched and
returns exactly `pairUp` of the level. -/
theorem process_false (combine : H → H → H) (t : MerkleTree H) (l : List H) :
    process_leaves_in_pairs combine t l false = (t, Except.ok (pairUp combine l)) := by
  induction l using pairRec generalizing t with
  | nil => simp [process_leaves_in_pairs, pairUp]
  | single x => simp [process_leaves_in_pairs, pairUp]
  | cons x y rest ih =>
    rw [process_leaves_in_pairs]
    simp [ih, pairUp]

/-- With `generate_path = false` the whole reduction leaves the state
untouched and returns the pure `reduceList`. -/
theorem reduce_false (combine : H → H → H) (t : MerkleTree H) (l : List H) :
    reduce_tree combine t l false = (t, Except.ok (reduceList combine l)) := by
  rw [reduce_tree_eq, process_false, reduceList]
  by_cases h : (pairUp combine l).length > 1
  · simp only [h, if_pos, dif_pos]
    exact reduce_false combine t (pairUp combine l)
  · simp only [h, if_neg, dif_neg, not_false_eq_true]
termination_by l.length
decreasing_by
  have := pairUp_length combine l
  omega

/-- The reduction of a nonempty level is a single digest. -/
theorem reduceList_length_one (combine : H → H → H) (l : List H) (h : l ≠ []) :
    ∃ r, reduceList combine l = [r] := by
  have hlen : l.length ≥ 1 := by
    cases l with
    | nil => simp at h
    | cons a as => simp
  rw [reduceList]
  by_cases hp : (pairUp combine l).length > 1
  · simp only [hp, dif_pos]
    apply reduceList_length_one
    have := pairUp_length combine l
    intro hcon
    rw [hcon] at this
    simp at this
    omega
  · simp only [hp, dif_neg, not_false_eq_true]
    have := pairUp_length combine l
    have h1 : (pairUp combine l).length = 1 := by omega
    exact List.length_eq_one.mp h1
termination_by l.length
decreasing_by
  have := pairUp_length combine l
  omega

/-- Full characterisation of `add_to_path` when a current path leaf is
set: pairs missing the target leave the state alone, otherwise the
sibling(s) are appended and the target is rebound. -/
theorem add_to_path_some (t : MerkleTree H) (a b c v : H)
    (hc : t.current_path_leaf = some v) :
    add_to_path t a b c =
      (if a ≠ v ∧ b ≠ v then (t, Except.ok ())
       else ({ t with
                path := t.path ++ (if a = v then [b] else []) ++ (if b = v then [a] else []),
                current_path_leaf := some c }, Except.ok ())) := by
  rcases t with ⟨lv, p, cpl⟩
  simp at hc
  subst hc
  rw [add_to_path]
  split_ifs with h1 h2 h3 h4 h5 <;> simp_all

theorem add_to_path_miss {t : MerkleTree H} {a b c v : H}
    (hc : t.current_path_leaf = some v) (ha : a ≠ v) (hb : b ≠ v) :
    add_to_path t a b c = (t, Except.ok ()) := by
  rw [add_to_path_some t a b c v hc]
  simp [ha, hb]

theorem add_to_path_left {t : MerkleTree H} {a b c v : H}
    (hc : t.current_path_leaf = some v) (ha : a = v) (hb : b ≠ v) :
    add_to_path t a b c =
      ({ t with path := t.path ++ [b], current_path_leaf := some c }, Except.ok ()) := by
  rw [add_to_path_some t a b c v hc]
  simp [ha, hb]

theorem add_to_path_right {t : MerkleTree H} {a b c v : H}
    (hc : t.current_path_leaf = some v) (ha : a ≠ v) (hb : b = v) :
    add_to_path t a b c =
      ({ t with path := t.path ++ [a], current_path_leaf := some c }, Except.ok ()) := by
  rw [add_to_path_some t a b c v hc]
  simp [ha, hb]

theorem add_to_path_leaves (t : MerkleTree H) (a b c : H) :
    (add_to_path t a b c).1.leaves = t.leaves := by
  rcases t with ⟨lv, p, cpl⟩
  cases cpl with
  | none => rw [add_to_path]
  | some v =>
    rw [add_to_path_some _ a b c v rfl]
    split_ifs <;> rfl

/-- No query pass ever changes the stored leaf sequence. -/
theorem process_leaves_frame (combine : H → H → H) (t : MerkleTree H)
    (l : List H) (g : Bool) :
    ((process_leaves_in_pairs combine t l g).1).leaves = t.leaves := by
  induction l using pairRec generalizing t with
  | nil => rw [process_leaves_in_pairs]
  | single x => rw [process_leaves_in_pairs]
  | cons x y rest ih =>
    rw [process_leaves_in_pairs]
    rcases h1 : (if g then add_to_path t x y (combine x y) else (t, Except.ok ())) with ⟨t1, r1⟩
    have ht1 : t1.leaves = t.leaves := by
      cases g with
      | false => simp at h1; rw [← h1.1]
      | true =>
        simp only [if_pos] at h1
        have := add_to_path_leaves t x y (combine x y)
        rw [h1] at this
        exact this
    cases r1 with
    | error e => simpa using ht1
    | ok u =>
      dsimp only
      rcases h2 : process_leaves_in_pairs combine t1 rest g with ⟨t2, r2⟩
      have ht2 : t2.leaves = t1.leaves := by
        have := ih t1
        rw [h2] at this
        exact this
      cases r2 <;> simpa using ht2.trans ht1

theorem reduce_leaves_frame (combine : H → H → H) (t : MerkleTree H)
    (l : List H) (g : Bool) :
    ((reduce_tree combine t l g).1).leaves = t.leaves := by
  rw [reduce_tree_eq]
  rcases hp : process_leaves_in_pairs combine t l g with ⟨t1, r⟩
  have ht1 : t1.leaves = t.leaves := by
    have := process_leaves_frame combine t l g
    rw [hp] at this
    exact this
  cases r with
  | error e => simpa using ht1
  | ok processed =>
    dsimp only
    by_cases h : processed.length > 1
    · simp only [h, if_pos]
      have := reduce_leaves_frame combine t1 processed g
      rw [this, ht1]
    · simp only [h, if_neg, not_false_eq_true]
      exact ht1
termination_by l.length
decreasing_by
  have := process_length combine hp
  omega

/-- With a current path leaf set, a path-generating pass never fails and
keeps a current path leaf set. -/
theorem process_true_ok (combine : H → H → H) (t : MerkleTree H) (l : List H)
    (hc : ∃ v, t.current_path_leaf = some v) :
    ∃ t' p, process_leaves_in_pairs combine t l true = (t', Except.ok p) ∧
      ∃ w, t'.current_path_leaf = some w := by
  induction l using pairRec generalizing t with
  | nil => exact ⟨t, [], by rw [process_leaves_in_pairs], hc⟩
  | single x => exact ⟨t, [x], by rw [process_leaves_in_pairs], hc⟩
  | cons x y rest ih =>
    obtain ⟨v, hv⟩ := hc
    have hstep : ∃ t1, add_to_path t x y (combine x y) = (t1, Except.ok ()) ∧
        ∃ w, t1.current_path_leaf = some w := by
      rw [add_to_path_some t x y (combine x y) v hv]
      by_cases hxy : x ≠ v ∧ y ≠ v
      · rw [if_pos hxy]
        exact ⟨t, rfl, v, hv⟩
      · rw [if_neg hxy]
        exact ⟨_, rfl, combine x y, rfl⟩
    obtain ⟨t1, h1, hw1⟩ := hstep
    obtain ⟨t2, p2, h2, hw2⟩ := ih t1 hw1
    refine ⟨t2, combine x y :: p2, ?_, hw2⟩
    rw [process_leaves_in_pairs]
    simp [h1, h2]

theorem reduce_true_ok (combine : H → H → H) (t : MerkleTree H) (l : List H)
    (hc : ∃ v, t.current_path_leaf = some v) :
    ∃ t' p, reduce_tree combine t l true = (t', Except.ok p) ∧
      ∃ w, t'.current_path_leaf = some w := by
  obtain ⟨t1, p1, h1, hw1⟩ := process_true_ok combine t l hc
  rw [reduce_tree_eq, h1]
  dsimp only
  by_cases h : p1.length > 1
  · simp only [h, if_pos]
    exact reduce_true_ok combine t1 p1 hw1
  · simp only [h, if_neg, not_false_eq_true]
    exact ⟨t1, p1, rfl, hw1⟩
termination_by l.length
decreasing_by
  have := process_length combine h1
  omega

/-- `get_proof` always succeeds and always leaves the tree in the state
`⟨old leaves, [], none⟩`. -/
theorem get_proof_state (combine : H → H → H) (t : MerkleTree H) (d : H) :
    ∃ pr, get_proof combine t d = (⟨t.leaves, [], none⟩, Except.ok pr) := by
  rw [get_proof]
  obtain ⟨t1, p1, h1, hw⟩ :=
    reduce_true_ok combine { t with current_path_leaf := some d } t.leaves ⟨d, rfl⟩
  have hlv : t1.leaves = t.leaves := by
    have := reduce_leaves_frame combine { t with current_path_leaf := some d } t.leaves true
    rw [h1] at this
    exact this
  rw [h1]
  exact ⟨t1.path, by simp [clear_path, hlv]⟩

/-- `root_hash` leaves the tree state entirely unchanged. -/
theorem root_hash_state (combine : H → H → H) (t : MerkleTree H) :
    (root_hash combine t).1 = t := by
  rw [root_hash]
  by_cases h : t.leaves.isEmpty
  · simp [h]
  · simp only [h, if_neg, not_false_eq_true, Bool.false_eq_true, reduce_false]
    rcases (reduceList combine t.leaves).head? with _ | r <;> rfl

theorem root_hash_of_reduceList {combine : H → H → H} {t : MerkleTree H} {r : H}
    (h : reduceList combine t.leaves = [r]) :
    root_hash combine t = (t, Except.ok r) := by
  have hne : t.leaves ≠ [] := by
    intro hcon
    rw [hcon, reduceList] at h
    simp [pairUp] at h
  rw [root_hash]
  simp only [List.isEmpty_iff, hne, if_neg, reduce_false, h]
  rfl

/-- A pass whose target digest occurs nowhere in the level leaves the
state untouched. -/
theorem process_miss (combine : H → H → H) (t : MerkleTree H) (l : List H) {v : H}
    (hc : t.current_path_leaf = some v) (hm : v ∉ l) :
    process_leaves_in_pairs combine t l true = (t, Except.ok (pairUp combine l)) := by
  induction l using pairRec generalizing t with
  | nil => rw [process_leaves_in_pairs]; rfl
  | single x => rw [process_leaves_in_pairs]; rfl
  | cons x y rest ih =>
    have hx : x ≠ v := fun h => hm (by simp [h])
    have hy : y ≠ v := fun h => hm (by simp [h])
    have hrest : v ∉ rest := fun h => hm (by simp [h])
    rw [process_leaves_in_pairs]
    simp only [if_pos, add_to_path_miss hc hx hy]
    rw [ih t hc hrest]
    rfl

theorem levels_shift (combine : H → H → H) (L : List H) (k : Nat) :
    levels combine (pairUp combine L) k = levels combine L (k + 1) := by
  induction k with
  | zero => rfl
  | succ n ih => rw [levels, ih]; rfl

/-- A full reduction whose target digest occurs at no level leaves the
state untouched. -/
theorem reduce_miss (combine : H → H → H) (t : MerkleTree H) (l : List H) {v : H}
    (hc : t.current_path_leaf = some v) (hm : ∀ k, v ∉ levels combine l k) :
    reduce_tree combine t l true = (t, Except.ok (reduceList combine l)) := by
  rw [reduce_tree_eq, process_miss combine t l hc (hm 0), reduceList]
  by_cases h : (pairUp combine l).length > 1
  · simp only [h, if_pos, dif_pos]
    refine reduce_miss combine t (pairUp combine l) hc ?_
    intro k
    rw [levels_shift]
    exact hm (k + 1)
  · simp only [h, if_neg, dif_neg, not_false_eq_true]
termination_by l.length
decreasing_by
  have := pairUp_length combine l
  omega

end MerkleTree

/-- Shared helper for the `ToHash::combine` claims: the default combine
hashes the bytes of the larger operand followed by those of the smaller. -/
theorem combine_eq_max_min {H : Type} [LinearOrder H]
    (hash : List Nat → H) (into : H → List Nat) (a b : H) :
    ToHash.combine hash into a b = hash (into (max a b) ++ into (min a b)) := by
  rw [ToHash.combine]
  by_cases h : a ≤ b
  · rw [if_pos h, max_eq_right h, min_eq_left h]
  · have h' : b ≤ a := le_of_not_le h
    rw [if_neg h, max_eq_left h', min_eq_right h']

/-- C3: for every pair of digests `(a, b)`, `combine(a, b)` equals `hash`
applied to the concatenation that places the greater digest (under the
digest's total order) first and the lesser digest second. -/
theorem combine_concatenates_greater_first {H : Type} [LinearOrder H]
    (hash : List Nat → H) (into : H → List Nat) (a b : H) :
    ToHash.combine hash into a b = hash (into (max a b) ++ into (min a b)) :=
  combine_eq_max_min hash into a b

/-- C4: for every pair of digests `(a, b)`,
`combine(a, b) == combine(b, a)`, and `combine` is deterministic (equal
inputs give equal outputs). -/
theorem combine_commutative_deterministic {H : Type} [LinearOrder H]
    (hash : List Nat → H) (into : H → List Nat) (a b : H) :
    ToHash.combine hash into a b = ToHash.combine hash into b a ∧
      ∀ a2 b2, a = a2 → b = b2 →
        ToHash.combine hash into a b = ToHash.combine hash into a2 b2 := by
  constructor
  · rw [combine_eq_max_min, combine_eq_max_min, max_comm, min_comm]
  · rintro a2 b2 rfl rfl
    rfl

/-- C5: for every tree holding no leaves, `root_hash()` fails with an
error of kind `TreeEmpty`. -/
theorem root_hash_empty_tree_tree_empty {H : Type} [DecidableEq H]
    (combine : H → H → H) (t : MerkleTree H) (h : t.leaves = []) :
    ∃ e, (MerkleTree.root_hash combine t).2 = Except.error e ∧
      e.kind = TreeErrorKind.TreeEmpty := by
  refine ⟨TreeError.tree_empty, ?_, rfl⟩
  rw [MerkleTree.root_hash]
  simp [h]

theorem root_hash_empty_tree_tree_empty_witness :
    (MerkleTree.from_leaves ([] : List Nat)).leaves = [] ∧
    ∃ e, (MerkleTree.root_hash (fun a b => a + b)
        (MerkleTree.from_leaves ([] : List Nat))).2 = Except.error e ∧
      e.kind = TreeErrorKind.TreeEmpty :=
  ⟨rfl, root_hash_empty_tree_tree_empty (fun a b => a + b) _ rfl⟩

/-- C2 counterexample: on a tree holding no leaves, `get_proof` does not
fail with `TreeEmpty` — it succeeds and returns the empty proof, because
only `root_hash` checks `leaves.is_empty()`. -/
theorem get_proof_empty_tree_returns_ok :
    (MerkleTree.get_proof (fun a b => a + b)
        (MerkleTree.from_leaves ([] : List Nat)) 0).2 = Except.ok [] := by
  simp [MerkleTree.get_proof, MerkleTree.reduce_tree_eq,
    MerkleTree.process_leaves_in_pairs, MerkleTree.from_leaves, MerkleTree.clear_path]

/-- C2 amended: for every tree holding no leaves and every digest `d`,
`get_proof(d)` succeeds and returns the empty sequence; the `TreeEmpty`
failure is raised only by `root_hash`. -/
theorem get_proof_empty_tree_ok {H : Type} [DecidableEq H]
    (combine : H → H → H) (d : H) :
    (MerkleTree.get_proof combine (MerkleTree.from_leaves ([] : List H)) d).2
      = Except.ok [] := by
  simp [MerkleTree.get_proof, MerkleTree.reduce_tree_eq,
    MerkleTree.process_leaves_in_pairs, MerkleTree.from_leaves, MerkleTree.clear_path]

/-- C6: for every tree holding exactly one leaf, `root_hash()` succeeds
and returns that leaf's digest unchanged, and `get_proof` of that leaf
succeeds and returns the empty sequence.  Both facts hold for an
arbitrary `combine` function — the quantification over `combine` makes
precise that no combine is performed. -/
theorem singleton_root_and_empty_proof {H : Type} [DecidableEq H]
    (combine : H → H → H) (x : H) :
    (MerkleTree.root_hash combine (MerkleTree.from_leaves [x])).2 = Except.ok x ∧
    (MerkleTree.get_proof combine (MerkleTree.from_leaves [x]) x).2 = Except.ok [] := by
  constructor
  · have h : MerkleTree.reduceList combine [x] = [x] := by
      rw [MerkleTree.reduceList]
      simp [MerkleTree.pairUp]
    rw [MerkleTree.root_hash_of_reduceList (t := MerkleTree.from_leaves [x]) h]
  · simp [MerkleTree.get_proof, MerkleTree.reduce_tree_eq,
      MerkleTree.process_leaves_in_pairs, MerkleTree.from_leaves, MerkleTree.clear_path]

/-- C8: for every stored proof sequence and every `(root, leaf)` pair,
`validate` is a total boolean predicate: it equals the comparison of
`root` with the left fold of `[leaf] ++ proof` through `combine`, and the
internal `reduce_proof` never yields an error (the prepended leaf makes
the folded sequence nonempty), so no failure can propagate. -/
theorem validate_total_boolean_fold {H : Type} [DecidableEq H]
    (combine : H → H → H) (p : MerkleProof H) (root leaf : H) :
    MerkleProof.validate combine p root leaf
        = decide (root = List.foldl combine leaf p.proof) ∧
    ∃ h, MerkleProof.reduce_proof combine p leaf = Except.ok h := by
  constructor
  · rw [MerkleProof.validate, MerkleProof.reduce_proof, MerkleProof.listReduce]
    by_cases h : root = List.foldl combine leaf p.proof <;> simp [h]
  · exact ⟨_, by rw [MerkleProof.reduce_proof, MerkleProof.listReduce]⟩

/-- C9: neither `root_hash` nor `get_proof` mutates the stored leaf
sequence (`root_hash` in fact leaves the whole state unchanged), so
repeating the same query returns the same result; for `get_proof` the
repetition statement is for trees whose transient `path` is empty, which
holds for every tree reachable through the public constructors since
`get_proof` always resets the transient state. -/
theorem query_frame_preserves_leaves {H : Type} [DecidableEq H]
    (combine : H → H → H) (t : MerkleTree H) (d : H) :
    ((MerkleTree.root_hash combine t).1).leaves = t.leaves ∧
    ((MerkleTree.get_proof combine t d).1).leaves = t.leaves ∧
    (MerkleTree.root_hash combine ((MerkleTree.root_hash combine t).1)).2
        = (MerkleTree.root_hash combine t).2 ∧
    (t.path = [] →
      (MerkleTree.get_proof combine ((MerkleTree.get_proof combine t d).1) d).2
        = (MerkleTree.get_proof combine t d).2) := by
  obtain ⟨pr, hpr⟩ := MerkleTree.get_proof_state combine t d
  refine ⟨?_, ?_, ?_, ?_⟩
  · rw [MerkleTree.root_hash_state]
  · rw [hpr]
  · rw [MerkleTree.root_hash_state]
  · intro hpath
    have hsame : MerkleTree.get_proof combine (⟨t.leaves, [], none⟩ : MerkleTree H) d
        = MerkleTree.get_proof combine t d := by
      rcases t with ⟨lv, p, c⟩
      simp only at hpath
      subst hpath
      rfl
    rw [hpr, hsame, hpr]

theorem query_frame_preserves_leaves_witness :
    (MerkleTree.get_proof (fun a b : Nat => a + b)
        ((MerkleTree.get_proof (fun a b => a + b) (MerkleTree.from_leaves [1, 2]) 1).1) 1).2
      = (MerkleTree.get_proof (fun a b => a + b) (MerkleTree.from_leaves [1, 2]) 1).2 :=
  (query_frame_preserves_leaves (fun a b => a + b)
    (MerkleTree.from_leaves [1, 2]) 1).2.2.2 rfl

/-- C10 (implicit): for every tree holding at least one leaf and every
digest `d` equal to no stored leaf and no digest computed during the
reduction (no element of any level), `get_proof(d)` succeeds and returns
the empty sequence — it never signals that the queried digest is absent. -/
theorem get_proof_absent_digest {H : Type} [DecidableEq H]
    (combine : H → H → H) (L : List H) (hne : L ≠ []) (d : H)
    (habs : ∀ k, d ∉ MerkleTree.levels combine L k) :
    (MerkleTree.get_proof combine (MerkleTree.from_leaves L) d).2 = Except.ok [] := by
  rw [MerkleTree.get_proof]
  dsimp only [MerkleTree.from_leaves]
  rw [MerkleTree.reduce_miss combine _ L (v := d) rfl habs]

theorem get_proof_absent_digest_witness :
    (([0, 1] : List Nat) ≠ [] ∧
      ∀ k, 5 ∉ MerkleTree.levels (fun a b => a + b) [0, 1] k) ∧
    (MerkleTree.get_proof (fun a b => a + b)
        (MerkleTree.from_leaves [0, 1]) 5).2 = Except.ok [] := by
  have haux : ∀ k, MerkleTree.levels (fun a b : Nat => a + b) [0, 1] (k + 1) = [1] := by
    intro k
    induction k with
    | zero => rfl
    | succ n ih => rw [MerkleTree.levels, ih]; rfl
  have habs : ∀ k, 5 ∉ MerkleTree.levels (fun a b : Nat => a + b) [0, 1] k := by
    intro k
    cases k with
    | zero => decide
    | succ n => rw [haux]; decide
  exact ⟨⟨by decide, habs⟩,
    get_proof_absent_digest (fun a b => a + b) [0, 1] (by decide) 5 habs⟩

/-!
Collision-free digest model, used where claims depend on the assumed
collision resistance of the hash: a digest is either an atomic leaf
digest (the hash of one data item, identified by a natural number) or
the combined digest of two child digests.  `combineT` mirrors the
canonical ordering rule of `ToHash::combine` — the greater operand under
a total order comes first — on this symbolic digest type, so it is
commutative, and distinct symbolic digests never collide.
-/

inductive Tdig where
  | leaf : Nat → Tdig
  | node : Tdig → Tdig → Tdig
deriving DecidableEq

/-- Total-order comparison on symbolic digests (atomic digests first,
then lexicographic on children). -/
def tcmp : Tdig → Tdig → Ordering
  | Tdig.leaf m, Tdig.leaf n => compare m n
  | Tdig.leaf _, Tdig.node _ _ => Ordering.lt
  | Tdig.node _ _, Tdig.leaf _ => Ordering.gt
  | Tdig.node a b, Tdig.node c d => (tcmp a c).then (tcmp b d)

/-- The canonical commutative combine of the collision-free model: the
greater digest becomes the first child, as in `ToHash::combine`. -/
def combineT (a b : Tdig) : Tdig :=
  match tcmp a b with
  | Ordering.lt => Tdig.node b a
  | _ => Tdig.node a b

theorem nat_compare_swap (m n : Nat) : compare n m = (compare m n).swap := by
  rcases lt_trichotomy m n with h | h | h
  · rw [compare_lt_iff_lt.2 h, compare_gt_iff_gt.2 h]
    rfl
  · subst h
    rw [compare_eq_iff_eq.2 rfl]
    rfl
  · rw [compare_gt_iff_gt.2 h, compare_lt_iff_lt.2 h]
    rfl

theorem tcmp_swap (a b : Tdig) : tcmp b a = (tcmp a b).swap := by
  induction a generalizing b with
  | leaf m =>
    cases b with
    | leaf n => exact nat_compare_swap m n
    | node c d => rfl
  | node a1 a2 ih1 ih2 =>
    cases b with
    | leaf n => rfl
    | node c d =>
      rw [tcmp, tcmp, ih1, ih2, Ordering.swap_then]

theorem tcmp_eq (a b : Tdig) (h : tcmp a b = Ordering.eq) : a = b := by
  induction a generalizing b with
  | leaf m =>
    cases b with
    | leaf n => rw [tcmp] at h; rw [compare_eq_iff_eq.1 h]
    | node c d => exact absurd h (by rw [tcmp]; simp)
  | node a1 a2 ih1 ih2 =>
    cases b with
    | leaf n => exact absurd h (by rw [tcmp]; simp)
    | node c d =>
      rw [tcmp, Ordering.then_eq_eq] at h
      rw [ih1 c h.1, ih2 d h.2]

theorem combineT_comm (a b : Tdig) : combineT a b = combineT b a := by
  rw [combineT, combineT, tcmp_swap a b]
  cases h : tcmp a b with
  | lt => rfl
  | eq =>
    rw [tcmp_eq a b h]
    rfl
  | gt => rfl

theorem combineT_ne_leaf (x y : Tdig) (n : Nat) : combineT x y ≠ Tdig.leaf n := by
  rw [combineT]
  rcases tcmp x y <;> simp

theorem leaf_ne_combineT (x y : Tdig) (n : Nat) : Tdig.leaf n ≠ combineT x y :=
  fun h => combineT_ne_leaf x y n h.symm

/-- The set of atomic digests a symbolic digest was built from. -/
def leafSet : Tdig → Finset Nat
  | Tdig.leaf n => {n}
  | Tdig.node a b => leafSet a ∪ leafSet b

theorem leafSet_combineT (a b : Tdig) :
    leafSet (combineT a b) = leafSet a ∪ leafSet b := by
  rw [combineT]
  rcases tcmp a b <;> simp [leafSet, Finset.union_comm]

theorem leafSet_nonempty (t : Tdig) : (leafSet t).Nonempty := by
  induction t with
  | leaf n => exact ⟨n, by simp [leafSet]⟩
  | node a b iha ihb => exact iha.mono (by simp [leafSet, Finset.subset_union_left])

/-- The collision-freeness hypothesis for a leaf sequence: the digests
are built from pairwise disjoint sets of atomic digests.  For atomic
leaves this is exactly pairwise distinctness, and it makes every
internal collision (between digests appearing at or across levels of the
reduction) impossible. -/
def DisjointLeaves (l : List Tdig) : Prop :=
  l.Pairwise fun a b => Disjoint (leafSet a) (leafSet b)

instance (l : List Tdig) : Decidable (DisjointLeaves l) :=
  inferInstanceAs (Decidable (l.Pairwise _))

/-- Union of the leaf supports of a level. -/
def unionLeafSet (l : List Tdig) : Finset Nat :=
  l.foldr (fun t s => leafSet t ∪ s) ∅

theorem disjoint_unionLeafSet {S : Finset Nat} {l : List Tdig}
    (h : ∀ x ∈ l, Disjoint S (leafSet x)) : Disjoint S (unionLeafSet l) := by
  induction l with
  | nil => simp [unionLeafSet]
  | cons x xs ih =>
    rw [unionLeafSet, List.foldr_cons, Finset.disjoint_union_right]
    exact ⟨h x (by simp), ih fun z hz => h z (by simp [hz])⟩

theorem pairUp_leafSet_subset {l : List Tdig} {w : Tdig}
    (hw : w ∈ MerkleTree.pairUp combineT l) : leafSet w ⊆ unionLeafSet l := by
  induction l using MerkleTree.pairRec with
  | nil => simp [MerkleTree.pairUp] at hw
  | single x =>
    simp [MerkleTree.pairUp] at hw
    subst hw
    simp [unionLeafSet]
  | cons x y rest ih =>
    rw [MerkleTree.pairUp] at hw
    rcases List.mem_cons.1 hw with h | h
    · subst h
      rw [leafSet_combineT]
      intro z hz
      simp only [unionLeafSet, List.foldr_cons, Finset.mem_union]
      rcases Finset.mem_union.1 hz with h | h
      · exact Or.inl h
      · exact Or.inr (Or.inl h)
    · intro z hz
      have := ih h hz
      simp only [unionLeafSet, List.foldr_cons, Finset.mem_union] at this ⊢
      exact Or.inr (Or.inr this)

theorem disjoint_pairUp {l : List Tdig} (hd : DisjointLeaves l) :
    DisjointLeaves (MerkleTree.pairUp combineT l) := by
  induction l using MerkleTree.pairRec with
  | nil => exact hd
  | single x => exact hd
  | cons x y rest ih =>
    rw [DisjointLeaves, List.pairwise_cons] at hd
    obtain ⟨hx, hd'⟩ := hd
    rw [List.pairwise_cons] at hd'
    obtain ⟨hy, hrest⟩ := hd'
    rw [MerkleTree.pairUp, DisjointLeaves, List.pairwise_cons]
    refine ⟨?_, ih hrest⟩
    intro w hw
    rw [leafSet_combineT, Finset.disjoint_union_left]
    have hsub := pairUp_leafSet_subset hw
    constructor
    · exact Finset.disjoint_of_subset_right hsub
        (disjoint_unionLeafSet fun z hz => hx z (by simp [hz]))
    · exact Finset.disjoint_of_subset_right hsub
        (disjoint_unionLeafSet fun z hz => hy z hz)

theorem ne_of_disjoint_leafSet {z w : Tdig}
    (h : Disjoint (leafSet z) (leafSet w)) : z ≠ w := by
  intro he
  subst he
  rw [disjoint_self] at h
  have := leafSet_nonempty z
  rw [h] at this
  exact Finset.not_nonempty_empty this

theorem combineT_not_mem {x : Tdig} (y : Tdig) {rest : List Tdig}
    (hx : ∀ z ∈ rest, Disjoint (leafSet x) (leafSet z)) :
    combineT x y ∉ rest := by
  intro hmem
  have hdj := hx _ hmem
  rw [leafSet_combineT, Finset.disjoint_union_right] at hdj
  have hne := leafSet_nonempty x
  rw [disjoint_self] at hdj
  rw [hdj.1] at hne
  exact Finset.not_nonempty_empty hne

/-- One path-generating pass with the target present in a
collision-free level: the level reduces to `pairUp`, exactly the
sibling(s) the spec describes are appended to the path, and the target
is rebound to a member of the next level whose digest is the fold of the
appended siblings onto the old target. -/
theorem process_track (t : MerkleTree Tdig) (l : List Tdig) (v : Tdig)
    (hd : DisjointLeaves l) (hv : v ∈ l) (hc : t.current_path_leaf = some v) :
    ∃ sibs v',
      MerkleTree.process_leaves_in_pairs combineT t l true
          = ({ t with path := t.path ++ sibs, current_path_leaf := some v' },
             Except.ok (MerkleTree.pairUp combineT l))
        ∧ v' ∈ MerkleTree.pairUp combineT l
        ∧ List.foldl combineT v sibs = v' := by
  induction l using MerkleTree.pairRec generalizing t with
  | nil => simp at hv
  | single x =>
    have hvx : v = x := by simpa using hv
    refine ⟨[], v, ?_, ?_, rfl⟩
    · rw [MerkleTree.process_leaves_in_pairs]
      have ht : ({ t with path := t.path ++ [], current_path_leaf := some v }
          : MerkleTree Tdig) = t := by
        rcases t with ⟨lv, p, c⟩
        simp only at hc
        simp [hc]
      rw [ht, MerkleTree.pairUp]
    · rw [MerkleTree.pairUp]
      simp [hvx]
  | cons x y rest ih =>
    rw [DisjointLeaves, List.pairwise_cons] at hd
    obtain ⟨hx_all, hd'⟩ := hd
    have hd'' := hd'
    rw [List.pairwise_cons] at hd''
    obtain ⟨hy_all, hrest⟩ := hd''
    have hnotin : combineT x y ∉ rest :=
      combineT_not_mem y fun z hz => hx_all z (by simp [hz])
    by_cases hvx : x = v
    · have hyv : y ≠ v := by
        intro he
        exact ne_of_disjoint_leafSet (hx_all y (by simp)) (hvx.trans he.symm)
      refine ⟨[y], combineT x y, ?_, ?_, ?_⟩
      · rw [MerkleTree.process_leaves_in_pairs]
        simp only [if_pos]
        rw [MerkleTree.add_to_path_left hc hvx hyv]
        dsimp only
        rw [MerkleTree.process_miss combineT _ rest rfl hnotin]
        rw [MerkleTree.pairUp]
      · rw [MerkleTree.pairUp]
        exact List.mem_cons_self _ _
      · simp only [List.foldl_cons, List.foldl_nil]
        rw [hvx]
    · by_cases hvy : y = v
      · have hxv : x ≠ v := hvx
        refine ⟨[x], combineT x y, ?_, ?_, ?_⟩
        · rw [MerkleTree.process_leaves_in_pairs]
          simp only [if_pos]
          rw [MerkleTree.add_to_path_right hc hxv hvy]
          dsimp only
          rw [MerkleTree.process_miss combineT _ rest rfl hnotin]
          rw [MerkleTree.pairUp]
        · rw [MerkleTree.pairUp]
          exact List.mem_cons_self _ _
        · simp only [List.foldl_cons, List.foldl_nil]
          rw [← hvy]
          exact combineT_comm y x
      · have hvrest : v ∈ rest := by
          rcases List.mem_cons.1 hv with h | h
          · exact absurd h.symm hvx
          · rcases List.mem_cons.1 h with h2 | h2
            · exact absurd h2.symm hvy
            · exact h2
        have hxv : x ≠ v := hvx
        have hyv : y ≠ v := hvy
        obtain ⟨sibs, v', heq, hmem, hfold⟩ := ih t hrest hvrest hc
        refine ⟨sibs, v', ?_, ?_, hfold⟩
        · rw [MerkleTree.process_leaves_in_pairs]
          simp only [if_pos]
          rw [MerkleTree.add_to_path_miss hc hxv hyv]
          dsimp only
          rw [heq]
          rw [MerkleTree.pairUp]
        · rw [MerkleTree.pairUp]
          exact List.mem_cons_of_mem _ hmem

/-- Whole-reduction tracking in the collision-free model: with the target
present among collision-free leaves, the path-generating reduction
appends exactly the sibling trail to the path, the reduction result is
the singleton root, and folding the trail onto the target through
`combineT` recomputes the root. -/
theorem reduce_track (t : MerkleTree Tdig) (l : List Tdig) (v : Tdig)
    (hd : DisjointLeaves l) (hv : v ∈ l) (hc : t.current_path_leaf = some v) :
    ∃ sibs r,
      MerkleTree.reduce_tree combineT t l true
          = ({ t with path := t.path ++ sibs, current_path_leaf := some r },
             Except.ok [r])
        ∧ MerkleTree.reduceList combineT l = [r]
        ∧ List.foldl combineT v sibs = r := by
  obtain ⟨sibs1, v1, hproc, hmem, hfold⟩ := process_track t l v hd hv hc
  rw [MerkleTree.reduce_tree_eq, hproc]
  dsimp only
  by_cases h : (MerkleTree.pairUp combineT l).length > 1
  · rw [if_pos h]
    obtain ⟨sibs2, r, hred, hrl, hfold2⟩ :=
      reduce_track
        ({ t with path := t.path ++ sibs1, current_path_leaf := some v1 })
        (MerkleTree.pairUp combineT l) v1 (disjoint_pairUp hd) hmem rfl
    refine ⟨sibs1 ++ sibs2, r, ?_, ?_, ?_⟩
    · rw [hred]
      simp [List.append_assoc]
    · rw [MerkleTree.reduceList, dif_pos h]
      exact hrl
    · rw [List.foldl_append, hfold]
      exact hfold2
  · rw [if_neg h]
    have hne : MerkleTree.pairUp combineT l ≠ [] := List.ne_nil_of_mem hmem
    have hlen : (MerkleTree.pairUp combineT l).length = 1 := by
      have h1 : (MerkleTree.pairUp combineT l).length ≥ 1 := by
        cases hpl : MerkleTree.pairUp combineT l with
        | nil => exact absurd hpl hne
        | cons z zs => simp
      omega
    obtain ⟨r, hr⟩ := List.length_eq_one.mp hlen
    have hv1 : v1 = r := by
      rw [hr] at hmem
      simpa using hmem
    subst hv1
    refine ⟨sibs1, v1, ?_, ?_, ?_⟩
    · rw [hr]
    · rw [MerkleTree.reduceList, dif_neg h]
      exact hr
    · exact hfold
termination_by l.length
decreasing_by
  have := MerkleTree.pairUp_length combineT l
  omega

/-- C1 (completeness round trip): in the collision-free digest model,
for every non-empty leaf sequence `L` built from pairwise-disjoint leaf
supports (for atomic leaf digests this is exactly pairwise distinctness,
and it rules out every internal collision between digests of the
reduction) and every leaf `v ∈ L`: building the tree from `L`,
`root_hash` succeeds with some root `r`, `get_proof v` succeeds with
some proof `p`, and `validate r v` on a verifier built from `p` returns
`true`. -/
theorem completeness_validate_roundtrip (L : List Tdig) (hne : L ≠ [])
    (hd : DisjointLeaves L) (v : Tdig) (hv : v ∈ L) :
    ∃ r p,
      (MerkleTree.root_hash combineT (MerkleTree.from_leaves L)).2 = Except.ok r ∧
      (MerkleTree.get_proof combineT (MerkleTree.from_leaves L) v).2 = Except.ok p ∧
      MerkleProof.validate combineT ⟨p⟩ r v = true := by
  obtain ⟨sibs, r, hred, hrl, hfold⟩ :=
    reduce_track ⟨L, [], some v⟩ L v hd hv rfl
  refine ⟨r, sibs, ?_, ?_, ?_⟩
  · rw [MerkleTree.root_hash_of_reduceList (t := MerkleTree.from_leaves L) hrl]
  · rw [MerkleTree.get_proof]
    dsimp only [MerkleTree.from_leaves]
    rw [hred]
    simp
  · have hval : MerkleProof.validate combineT ⟨sibs⟩ r v
        = decide (r = List.foldl combineT v sibs) := by
      rw [MerkleProof.validate, MerkleProof.reduce_proof, MerkleProof.listReduce]
      by_cases hq : r = List.foldl combineT v sibs <;> simp [hq]
    rw [hval, hfold]
    simp

theorem completeness_validate_roundtrip_witness :
    (([Tdig.leaf 0, Tdig.leaf 1, Tdig.leaf 2] : List Tdig) ≠ [] ∧
      DisjointLeaves [Tdig.leaf 0, Tdig.leaf 1, Tdig.leaf 2] ∧
      Tdig.leaf 0 ∈ [Tdig.leaf 0, Tdig.leaf 1, Tdig.leaf 2]) ∧
    ∃ r p,
      (MerkleTree.root_hash combineT
          (MerkleTree.from_leaves [Tdig.leaf 0, Tdig.leaf 1, Tdig.leaf 2])).2
        = Except.ok r ∧
      (MerkleTree.get_proof combineT
          (MerkleTree.from_leaves [Tdig.leaf 0, Tdig.leaf 1, Tdig.leaf 2])
          (Tdig.leaf 0)).2
        = Except.ok p ∧
      MerkleProof.validate combineT ⟨p⟩ r (Tdig.leaf 0) = true :=
  ⟨⟨by decide, by decide, by decide⟩,
    completeness_validate_roundtrip _ (by decide) (by decide) _ (by decide)⟩

/-- C7 (odd-count carry): in the collision-free digest model, for a tree
built from three pairwise-distinct atomic leaves `[A, B, C]`:
`root_hash` returns `combine(combine(A, B), C)`, `get_proof(A)` returns
`[B, C]`, and `get_proof(C)` returns `[combine(A, B)]`. -/
theorem odd_count_carry_three_leaves (a b c : Nat)
    (hab : a ≠ b) (hac : a ≠ c) (hbc : b ≠ c) :
    (MerkleTree.root_hash combineT
        (MerkleTree.from_leaves [Tdig.leaf a, Tdig.leaf b, Tdig.leaf c])).2
      = Except.ok (combineT (combineT (Tdig.leaf a) (Tdig.leaf b)) (Tdig.leaf c)) ∧
    (MerkleTree.get_proof combineT
        (MerkleTree.from_leaves [Tdig.leaf a, Tdig.leaf b, Tdig.leaf c])
        (Tdig.leaf a)).2
      = Except.ok [Tdig.leaf b, Tdig.leaf c] ∧
    (MerkleTree.get_proof combineT
        (MerkleTree.from_leaves [Tdig.leaf a, Tdig.leaf b, Tdig.leaf c])
        (Tdig.leaf c)).2
      = Except.ok [combineT (Tdig.leaf a) (Tdig.leaf b)] := by
  have hrl : MerkleTree.reduceList combineT [Tdig.leaf a, Tdig.leaf b, Tdig.leaf c]
      = [combineT (combineT (Tdig.leaf a) (Tdig.leaf b)) (Tdig.leaf c)] := by
    rw [MerkleTree.reduceList]
    simp only [MerkleTree.pairUp]
    rw [dif_pos (by simp)]
    rw [MerkleTree.reduceList]
    simp only [MerkleTree.pairUp]
    rw [dif_neg (by simp)]
  refine ⟨?_, ?_, ?_⟩
  · rw [MerkleTree.root_hash_of_reduceList
      (t := MerkleTree.from_leaves [Tdig.leaf a, Tdig.leaf b, Tdig.leaf c]) hrl]
  · simp [MerkleTree.get_proof, MerkleTree.reduce_tree_eq,
      MerkleTree.process_leaves_in_pairs, MerkleTree.add_to_path,
      MerkleTree.from_leaves, MerkleTree.clear_path,
      hab, hac, hbc, Ne.symm hab, Ne.symm hac, Ne.symm hbc,
      combineT_ne_leaf, leaf_ne_combineT]
  · simp [MerkleTree.get_proof, MerkleTree.reduce_tree_eq,
      MerkleTree.process_leaves_in_pairs, MerkleTree.add_to_path,
      MerkleTree.from_leaves, MerkleTree.clear_path,
      hab, hac, hbc, Ne.symm hab, Ne.symm hac, Ne.symm hbc,
      combineT_ne_leaf, leaf_ne_combineT]

theorem odd_count_carry_three_leaves_witness :
    ((0 : Nat) ≠ 1 ∧ (0 : Nat) ≠ 2 ∧ (1 : Nat) ≠ 2) ∧
    ((MerkleTree.root_hash combineT
        (MerkleTree.from_leaves [Tdig.leaf 0, Tdig.leaf 1, Tdig.leaf 2])).2
      = Except.ok (combineT (combineT (Tdig.leaf 0) (Tdig.leaf 1)) (Tdig.leaf 2)) ∧
    (MerkleTree.get_proof combineT
        (MerkleTree.from_leaves [Tdig.leaf 0, Tdig.leaf 1, Tdig.leaf 2])
        (Tdig.leaf 0)).2
      = Except.ok [Tdig.leaf 1, Tdig.leaf 2] ∧
    (MerkleTree.get_proof combineT
        (MerkleTree.from_leaves [Tdig.leaf 0, Tdig.leaf 1, Tdig.leaf 2])
        (Tdig.leaf 2)).2
      = Except.ok [combineT (Tdig.leaf 0) (Tdig.leaf 1)]) :=
  ⟨⟨by decide, by decide, by decide⟩,
    odd_count_carry_three_leaves 0 1 2 (by decide) (by decide) (by decide)⟩
